import Mathlib

set_option maxHeartbeats 1000000
set_option maxRecDepth 100000

attribute [local semireducible] Rat.add Rat.mul Rat.inv Rat.sub

/-!
Verification of the occurrence-rate inference engine (`occur.py`):
completeness grids, bilinear interpolation, the binned (`Hierarchy`) and
power-law (`PowerLaw`) hierarchical models, and the logarithmic grid
builder `lngrid`.

Embedding conventions: the source's floating-point arithmetic is embedded
in `ℚ`; `np.log` / `np.exp` appear as abstract function parameters
(`lnF` / `expF`) since the claims only use their order/structure
properties; NaN-able completeness cells are `Option ℚ` (`none` = NaN);
`-np.inf` likelihood returns are `none`; the failed `assert` in
`Completeness.interpolate` is `Except.error`.
-/

namespace Occur

/-- First index of `xs` whose value is not below `x` (`xs.length` when every
value is below `x`).  For a sorted grid this is exactly
`np.searchsorted(xs, x, side='left')`, the cell search performed inside
`scipy`'s `RegularGridInterpolator`. -/
def lowerIdx (xs : List ℚ) (x : ℚ) : ℕ :=
  match xs with
  | [] => 0
  | a :: rest => if a < x then lowerIdx rest x + 1 else 0

/-- Interpolation cell index: `searchsorted - 1` clipped into
`[0, xs.length - 2]` (`scipy`'s `_find_indices`; the `- 1` underflow at
`x ≤ xs[0]` is clipped up to `0`, which ℕ subtraction already gives). -/
def cellIdx (xs : List ℚ) (x : ℚ) : ℕ :=
  min (lowerIdx xs x - 1) (xs.length - 2)

/-- Normalized coordinate of `x` inside cell `i` of the grid `xs`. -/
def lerpT (xs : List ℚ) (i : ℕ) (x : ℚ) : ℚ :=
  (x - xs.getD i 0) / (xs.getD (i + 1) 0 - xs.getD i 0)

/-- Entry `(i, j)` of a matrix stored as a list of rows, default `0`. -/
def getD2 (z : List (List ℚ)) (i j : ℕ) : ℚ := (z.getD i []).getD j 0

/-- Bilinear interpolation on the rectilinear grid `(xs, ys)` with value
matrix `zi` in `(x-index, y-index)` layout — the layout `scipy` receives,
since `Completeness.interpolate` passes `self.grid[2].T`. -/
def bilinear (xs ys : List ℚ) (zi : List (List ℚ)) (x y : ℚ) : ℚ :=
  (1 - lerpT xs (cellIdx xs x) x) * (1 - lerpT ys (cellIdx ys y) y) *
      getD2 zi (cellIdx xs x) (cellIdx ys y) +
    lerpT xs (cellIdx xs x) x * (1 - lerpT ys (cellIdx ys y) y) *
      getD2 zi (cellIdx xs x + 1) (cellIdx ys y) +
    (1 - lerpT xs (cellIdx xs x) x) * lerpT ys (cellIdx ys y) y *
      getD2 zi (cellIdx xs x) (cellIdx ys y + 1) +
    lerpT xs (cellIdx xs x) x * lerpT ys (cellIdx ys y) y *
      getD2 zi (cellIdx xs x + 1) (cellIdx ys y + 1)

/-- Whether `x` lies strictly outside the closed span of the grid `xs`. -/
def outOfBounds (xs : List ℚ) (x : ℚ) : Bool :=
  decide (x < xs.getD 0 0) || decide (x > xs.getD (xs.length - 1) 0)

/-- Model of `RegularGridInterpolator((xs, ys), zi, bounds_error=False,
fill_value=0.001)` evaluated at `(x, y)` (occur.py lines 101-104). -/
def rgInterpolate (xs ys : List ℚ) (zi : List (List ℚ)) (x y : ℚ) : ℚ :=
  if outOfBounds xs x || outOfBounds ys y then 1 / 1000
  else bilinear xs ys zi x y

/-- Transpose of a rectangular matrix with `n` columns (`self.grid[2].T`). -/
def transposeRect (n : ℕ) (z : List (List ℚ)) : List (List ℚ) :=
  (List.range n).map (fun i => z.map (fun row => row.getD i 0))

/-- Whether `x` lies inside the closed span of the grid `xs`. -/
def inBounds (xs : List ℚ) (x : ℚ) : Prop :=
  xs.getD 0 0 ≤ x ∧ x ≤ xs.getD (xs.length - 1) 0

instance (xs : List ℚ) (x : ℚ) : Decidable (inBounds xs x) := by
  unfold inBounds; infer_instance

/-- One injection/recovery trial (a row of `recoveries`): injected axis,
injected mass, recovered flag. -/
structure Trial where
  x : ℚ
  y : ℚ
  recovered : Bool
deriving DecidableEq

/-- Masses of the trials whose injected axis lies in `[xlow, xhigh]`
(`xbox`, occur.py line 77). -/
def xboxMasses (trials : List Trial) (xlow xhigh : ℚ) : List ℚ :=
  (trials.filter (fun t => decide (xlow ≤ t.x) && decide (t.x ≤ xhigh))).map (fun t => t.y)

/-- The trial lies in the full completeness box (occur.py lines 82-83). -/
def inFullBox (xlow xhigh ylow yhigh : ℚ) (t : Trial) : Bool :=
  decide (xlow ≤ t.x) && decide (t.x ≤ xhigh) && decide (ylow ≤ t.y) && decide (t.y ≤ yhigh)

/-- Python `max` over a list (meaningful only for nonempty lists; the
source guards the empty case before calling it). -/
def maxQ (l : List ℚ) : ℚ := l.foldl max (l.headD 0)

/-- Python `min` over a list (same proviso as `maxQ`). -/
def minQ (l : List ℚ) : ℚ := l.foldl min (l.headD 0)

/-- Value of one completeness-grid cell with grid-point mass `y` and local
box `[xlow, xhigh] × [ylow, yhigh]` (the inner loop of
`Completeness.completeness_grid`, occur.py lines 72-92); `none` is
`np.nan`. -/
def cellValue (trials : List Trial) (xlow xhigh ylow yhigh y : ℚ) : Option ℚ :=
  if (xboxMasses trials xlow xhigh).isEmpty ∨ y > maxQ (xboxMasses trials xlow xhigh) ∨
      y < minQ (xboxMasses trials xlow xhigh) then none
  else if (trials.filter (fun t => inFullBox xlow xhigh ylow yhigh t)).length > 10 then
    some (((trials.filter (fun t => t.recovered && inFullBox xlow xhigh ylow yhigh t)).length : ℚ) /
      ((trials.filter (fun t => inFullBox xlow xhigh ylow yhigh t)).length : ℚ))
  else none

/-- A built completeness grid: axis points, mass points, and the value
matrix in `(mass-index, axis-index)` layout, exactly as
`completeness_grid` stores `(xgrid, ygrid, z)`.  Values are plain `ℚ`:
both model constructors replace the NaN cells (modelled upstream by
`Option ℚ` and `fillNan`) before any interpolation. -/
structure Grid where
  xs : List ℚ
  ys : List ℚ
  z : List (List ℚ)

/-- Mutable state of a `Completeness` object: the optional grid and the
optional cached interpolant. -/
structure Completeness where
  grid : Option Grid
  interpolator : Option (ℚ → ℚ → ℚ)

/-- Model of `Completeness.interpolate` (occur.py lines 96-104): lazily build (or on
`refresh` rebuild) the interpolant from the current grid — asserting that
a grid exists — then evaluate it at `(x, y)`.  `.error` models the failed
`assert`; the returned `Completeness` carries the cached interpolant. -/
def Completeness.interpolate (c : Completeness) (x y : ℚ) (refresh : Bool) :
    Except String (ℚ × Completeness) :=
  match c.interpolator, refresh with
  | some f, false => .ok (f x y, c)
  | _, _ =>
    match c.grid with
    | none => .error "Must run Completeness.completeness_grid()."
    | some g =>
      let f := fun a b => rgInterpolate g.xs g.ys (transposeRect g.xs.length g.z) a b
      .ok (f x y, { c with interpolator := some f })

/-- The constructors' NaN fill `grid[2][np.isnan(grid[2])] = 1.`
(occur.py lines 123 and 312). -/
def fillNan (z : List (List (Option ℚ))) : List (List ℚ) :=
  z.map (fun row => row.map (fun c => c.getD 1))

/-- One logarithmic bin `[[la1, la2], [lm1, lm2]]` in (ln axis, ln mass)
space. -/
structure Bin where
  la1 : ℚ
  la2 : ℚ
  lm1 : ℚ
  lm2 : ℚ
deriving DecidableEq

/-- Bin area `bin_areas[n][0]`: ln-axis width times ln-mass width (occur.py
lines 135-137). -/
def binArea (b : Bin) : ℚ := (b.la2 - b.la1) * (b.lm2 - b.lm1)

/-- Sub-grid midpoint `lna_av` (occur.py line 144). -/
def lnaAv (b : Bin) (res i : ℕ) : ℚ :=
  b.la1 + ((i : ℚ) / (res : ℚ) + 1 / (2 * (res : ℚ))) * (b.la2 - b.la1)

/-- Sub-grid midpoint `lnm_av` (occur.py line 145). -/
def lnmAv (b : Bin) (res j : ℕ) : ℚ :=
  b.lm1 + ((j : ℚ) / (res : ℚ) + 1 / (2 * (res : ℚ))) * (b.lm2 - b.lm1)

/-- Model of `Hierarchy.__init__`'s integrated completeness `Qints[n]` for one bin
(occur.py lines 140-148): midpoint-rule sum of the interpolated
completeness over the `res × res` sub-grid, each term weighted by
`bin_area / res²`.  `expF` abstracts `np.exp`; `(xs, ys, zi)` is the built
(transposed, NaN-filled) interpolation grid. -/
def Qint (expF : ℚ → ℚ) (xs ys : List ℚ) (zi : List (List ℚ)) (res : ℕ) (b : Bin) : ℚ :=
  ∑ i ∈ Finset.range res, ∑ j ∈ Finset.range res,
    (binArea b / (res : ℚ) ^ 2) *
      rgInterpolate xs ys zi (expF (lnaAv b res i)) (expF (lnmAv b res j))

/-- The `Hierarchy` fields read by `occurrence` and by the hard-bound
prior of `lnlike`.  `bin_areas` lists `bin_widths[:,0]*bin_widths[:,1]`
(shape `(nbins, 1)` in the source — one area per bin).  `rest` abstracts
the likelihood body (occur.py lines 222-246: per-planet sample sums plus
the 4×4 expected-count integral and the final finiteness guard), which the
hard-bound claims do not inspect; `none` models `-np.inf`. -/
structure Hierarchy where
  fraction : Bool
  bin_areas : List ℚ
  nstars : ℚ
  ceiling : ℚ
  lna_edges : List ℚ
  lnm_edges : List ℚ
  rest : List ℚ → Option ℚ

/-- Model of `np.sum(theta * self.bin_areas)` (occur.py line 218): `bin_areas` has
shape `(nbins, 1)`, so numpy broadcasts the product to the full
`(nbins, nbins)` outer product before summing. -/
def sumBroadcast (areas theta : List ℚ) : ℚ :=
  (areas.map (fun a => (theta.map (fun t => t * a)).sum)).sum

/-- Follows the spec's words (claim C1), for comparison with
`sumBroadcast` from the source: the elementwise area-weighted sum
`Σ theta_i * area_i`. -/
def specWeightedSum (areas theta : List ℚ) : ℚ :=
  (List.zipWith (fun t a => t * a) theta areas).sum

/-- Model of `Hierarchy.lnlike` (occur.py lines 215-246): the two hard-bound checks
of lines 216-221, then the abstracted body; `none` models `-np.inf`. -/
def Hierarchy.lnlike (H : Hierarchy) (theta : List ℚ) : Option ℚ :=
  if H.fraction && decide (sumBroadcast H.bin_areas theta / H.nstars > 1) then none
  else if theta.any (fun t => decide (t ≤ 0) || decide (t > 10 * H.ceiling)) then none
  else H.rest theta

/-- The combined hard-bound test, with the broadcast sum written in its
factored form `(Σ areas) * (Σ theta)`. -/
def hardReject (H : Hierarchy) (theta : List ℚ) : Bool :=
  (H.fraction && decide (H.bin_areas.sum * theta.sum / H.nstars > 1)) ||
    theta.any (fun t => decide (t ≤ 0) || decide (t > 10 * H.ceiling))

/-- Model of `np.digitize(v, edges) - 1` for sorted `edges` (occur.py lines
198-199): (number of edges `≤ v`) − 1, as an integer (so `-1` below the
first edge). -/
def rawIdx (edges : List ℚ) (v : ℚ) : ℤ :=
  (edges.countP (fun e => decide (e ≤ v)) : ℤ) - 1

/-- The clamping assignments `i[i < 0] = 0` then `i[i > n-1] = n-1`
(occur.py lines 202-205), applied to one index. -/
def clampIdx (n i : ℤ) : ℤ :=
  let i0 := if i < 0 then 0 else i
  if i0 > n - 1 then n - 1 else i0

/-- Number of bins along one direction: `len(edges) - 1`. -/
def nbinsOf (edges : List ℚ) : ℤ := (edges.length : ℤ) - 1

/-- The flat clamped bin index `ia + im * self.nabins` (occur.py
line 207). -/
def Hierarchy.flatIdx (H : Hierarchy) (lna lnm : ℚ) : ℤ :=
  clampIdx (nbinsOf H.lna_edges) (rawIdx H.lna_edges lna) +
    clampIdx (nbinsOf H.lnm_edges) (rawIdx H.lnm_edges lnm) * nbinsOf H.lna_edges

/-- numpy 1-D integer indexing: a negative index wraps once from the end;
an index out of `[-len, len)` raises (`none`). -/
def npGet (l : List ℚ) (i : ℤ) : Option ℚ :=
  let j := if i < 0 then i + (l.length : ℤ) else i
  if 0 ≤ j ∧ j < (l.length : ℤ) then l[j.toNat]? else none

/-- Model of `Hierarchy.occurrence` (occur.py lines 196-213) at one query point:
digitize `(lna, lnm)` into the bin edges, clamp, look `theta` up at the
flat index, then override with the filler `0.01` whenever the raw
(unclamped) index leaves the valid bin range. -/
def Hierarchy.occurrence (H : Hierarchy) (lna lnm : ℚ) (theta : List ℚ) : Option ℚ :=
  match npGet theta (H.flatIdx lna lnm) with
  | none => none
  | some v =>
    some (if rawIdx H.lna_edges lna < 0 ∨ rawIdx H.lnm_edges lnm < 0 ∨
        rawIdx H.lna_edges lna > nbinsOf H.lna_edges - 1 ∨
        rawIdx H.lnm_edges lnm > nbinsOf H.lnm_edges - 1 then 1 / 100 else v)

/-- Width `lnawidth` (occur.py line 335); `lnF` abstracts `np.log`. -/
def lnawidth (lnF : ℚ → ℚ) (a1 a2 : ℚ) (lna_res : ℕ) : ℚ :=
  (lnF a2 - lnF a1) / (lna_res : ℚ)

/-- Width `lnmwidth` (occur.py line 336). -/
def lnmwidth (lnF : ℚ → ℚ) (m1 m2 : ℚ) (lnm_res : ℕ) : ℚ :=
  (lnF m2 - lnF m1) / (lnm_res : ℚ)

/-- Center `lna_centers[i]` (occur.py lines 340-341). -/
def lnaCenter (lnF : ℚ → ℚ) (a1 a2 : ℚ) (lna_res : ℕ) (i : ℕ) : ℚ :=
  lnF a1 + ((i : ℚ) + 1 / 2) * lnawidth lnF a1 a2 lna_res

/-- Center `lnm_centers[j]` (occur.py lines 342-343). -/
def lnmCenter (lnF : ℚ → ℚ) (m1 m2 : ℚ) (lnm_res : ℕ) (j : ℕ) : ℚ :=
  lnF m1 + ((j : ℚ) + 1 / 2) * lnmwidth lnF m1 m2 lnm_res

/-- Model of `PowerLaw.__init__`'s `Qints` (occur.py lines 334-350): a zero array of
length `lnm_res`, accumulated in place over `i < lna_res`, `j < lnm_res`
into entry `i`, then divided elementwise by the total ln-mass span.  `Q`
abstracts the built completeness interpolant.  (When `lna_res > lnm_res`
the source raises `IndexError` on the out-of-range entry; the in-place
`List.set` is a no-op there instead — the claims all have
`lna_res ≤ lnm_res`.) -/
def PowerLawQints (Q : ℚ → ℚ → ℚ) (lnF expF : ℚ → ℚ) (a1 a2 m1 m2 : ℚ)
    (lna_res lnm_res : ℕ) : List ℚ :=
  (((List.range lna_res).foldl (fun acc n =>
    (List.range lnm_res).foldl (fun acc2 j =>
      acc2.set n (acc2.getD n 0 +
        lnawidth lnF a1 a2 lna_res * lnmwidth lnF m1 m2 lnm_res *
          Q (expF (lnaCenter lnF a1 a2 lna_res n))
            (expF (lnmCenter lnF m1 m2 lnm_res j)))) acc)
    (List.replicate lnm_res 0))).map (fun q => q / (lnF m2 - lnF m1))

/-- The expected-count term of `PowerLaw.lnlike` (occur.py lines 378-380):
the sum over `i < lna_res` of `Qints[i] * occurrence(exp(lnm_centers[i]))`.
`occ` abstracts `self.occurrence(·, theta)`. -/
def PowerLawNexpect (Q : ℚ → ℚ → ℚ) (lnF expF : ℚ → ℚ) (a1 a2 m1 m2 : ℚ)
    (lna_res lnm_res : ℕ) (occ : ℚ → ℚ) : ℚ :=
  ∑ i ∈ Finset.range lna_res,
    (PowerLawQints Q lnF expF a1 a2 m1 m2 lna_res lnm_res).getD i 0 *
      occ (expF (lnmCenter lnF m1 m2 lnm_res i))

/-- Follows the spec's words (claim C2), for comparison with
`PowerLawQints` from the source: one integrated completeness per *mass*
index — entry `j` integrates the completeness over the axis sub-grid at
mass center `j` with weight `lnawidth*lnmwidth`, divided by the total
ln-mass span. -/
def specQintsPerMass (Q : ℚ → ℚ → ℚ) (lnF expF : ℚ → ℚ) (a1 a2 m1 m2 : ℚ)
    (lna_res lnm_res : ℕ) : List ℚ :=
  (List.range lnm_res).map (fun j =>
    (∑ i ∈ Finset.range lna_res,
      lnawidth lnF a1 a2 lna_res * lnmwidth lnF m1 m2 lnm_res *
        Q (expF (lnaCenter lnF a1 a2 lna_res i))
          (expF (lnmCenter lnF m1 m2 lnm_res j))) /
      (lnF m2 - lnF m1))

/-- Follows the spec's words (claim C2): the expected-count term as a 1-D
sum over the per-mass-index `Qint` grid, weighted by the occurrence at
each mass center. -/
def specNexpectPerMass (Q : ℚ → ℚ → ℚ) (lnF expF : ℚ → ℚ) (a1 a2 m1 m2 : ℚ)
    (lna_res lnm_res : ℕ) (occ : ℚ → ℚ) : ℚ :=
  ∑ j ∈ Finset.range lnm_res,
    (specQintsPerMass Q lnF expF a1 a2 m1 m2 lna_res lnm_res).getD j 0 *
      occ (expF (lnmCenter lnF m1 m2 lnm_res j))

/-- One equal ln-division width, `dlna` / `dlnM` (occur.py lines
287-288). -/
def dln (lnF : ℚ → ℚ) (lo hi : ℚ) (res : ℕ) : ℚ := (lnF hi - lnF lo) / (res : ℚ)

/-- Model of `lngrid` (occur.py lines 281-296): the row-major (axis-major,
mass-minor) list of `resa * resm` logarithmic bins; `lnF` abstracts
`np.log`. -/
def lngrid (lnF : ℚ → ℚ) (min_a max_a min_M max_M : ℚ) (resa resm : ℕ) : List Bin :=
  ((List.range resa).map (fun (i : ℕ) =>
    (List.range resm).map (fun (j : ℕ) =>
      { la1 := lnF min_a + (i : ℚ) * dln lnF min_a max_a resa
        la2 := lnF min_a + ((i : ℚ) + 1) * dln lnF min_a max_a resa
        lm1 := lnF min_M + (j : ℚ) * dln lnF min_M max_M resm
        lm2 := lnF min_M + ((j : ℚ) + 1) * dln lnF min_M max_M resm : Bin }))).flatten

/-- The scalar value produced by `Completeness.interpolate` when it
succeeds (`none` when the precondition `assert` fires). -/
def interpValue (c : Completeness) (x y : ℚ) (refresh : Bool) : Option ℚ :=
  match c.interpolate x y refresh with
  | .ok (v, _) => some v
  | .error _ => none

/-- Concrete example data: 11 recovered and 1 unrecovered trial at
`(1, 1)`. -/
def trialsW : List Trial :=
  List.replicate 11 ⟨1, 1, true⟩ ++ [⟨1, 1, false⟩]

/-- Concrete example `Hierarchy` exercising the fraction-mode hard bound:
two bins of area `1`, one star. -/
def gateH : Hierarchy :=
  { fraction := true, bin_areas := [1, 1], nstars := 1, ceiling := 100,
    lna_edges := [0, 1], lnm_edges := [0, 1], rest := fun _ => some 0 }

/-- Concrete example `Hierarchy` with a 2×2 bin layout. -/
def hierW : Hierarchy :=
  { fraction := false, bin_areas := [1, 1, 1, 1], nstars := 1, ceiling := 100,
    lna_edges := [0, 1, 2], lnm_edges := [0, 1, 2], rest := fun _ => some 0 }

/-- Concrete example completeness grid. -/
def gridW : Grid := { xs := [0, 2], ys := [0, 2], z := [[0, 1], [1, 1]] }

/-- Concrete example `Completeness` state holding `gridW` and no cached
interpolant. -/
def compW : Completeness := { grid := some gridW, interpolator := none }

/-! ## General helper lemmas -/

theorem foldl_invariant {α β : Type} (P : β → Prop) (f : β → α → β) (l : List α) (b : β)
    (h0 : P b) (hstep : ∀ b' a, a ∈ l → P b' → P (f b' a)) : P (l.foldl f b) := by
  induction l generalizing b with
  | nil => exact h0
  | cons a rest ih =>
    exact ih (f b a) (hstep b a (by simp) h0)
      (fun b' a' ha' hb' => hstep b' a' (List.mem_cons_of_mem a ha') hb')

theorem sum_map_mul (l : List ℚ) (a : ℚ) : (l.map (fun t => t * a)).sum = l.sum * a := by
  induction l with
  | nil => simp
  | cons t rest ih => simp [ih, add_mul]

theorem sumBroadcast_eq (areas theta : List ℚ) :
    sumBroadcast areas theta = areas.sum * theta.sum := by
  unfold sumBroadcast
  induction areas with
  | nil => simp
  | cons a rest ih =>
    simp only [List.map_cons, List.sum_cons]
    rw [sum_map_mul, ih]
    ring

/-! ## Cell search and interpolation lemmas -/

theorem lowerIdx_le_length (xs : List ℚ) (x : ℚ) : lowerIdx xs x ≤ xs.length := by
  induction xs with
  | nil => simp [lowerIdx]
  | cons a rest ih =>
    simp only [lowerIdx, List.length_cons]
    split <;> omega

theorem getD_lt_of_lt_lowerIdx {xs : List ℚ} {x : ℚ} {k : ℕ} (h : k < lowerIdx xs x) :
    xs.getD k 0 < x := by
  induction xs generalizing k with
  | nil => simp [lowerIdx] at h
  | cons a rest ih =>
    simp only [lowerIdx] at h
    by_cases hax : a < x
    · rw [if_pos hax] at h
      cases k with
      | zero => simpa using hax
      | succ k' => simpa using ih (by omega)
    · rw [if_neg hax] at h; omega

theorem le_getD_lowerIdx {xs : List ℚ} {x : ℚ} (h : lowerIdx xs x < xs.length) :
    x ≤ xs.getD (lowerIdx xs x) 0 := by
  induction xs with
  | nil => simp at h
  | cons a rest ih =>
    by_cases hax : a < x
    · simp only [lowerIdx, if_pos hax, List.length_cons] at h ⊢
      simpa using ih (by omega)
    · simp only [lowerIdx, if_neg hax]
      simpa using le_of_not_lt hax

theorem chain_adjD {xs : List ℚ} (hs : List.Chain' (· < ·) xs) {i : ℕ}
    (h : i + 1 < xs.length) : xs.getD i 0 < xs.getD (i + 1) 0 := by
  rw [List.chain'_iff_get] at hs
  have hx := hs i (by omega)
  rw [List.getD_eq_getElem?_getD, List.getD_eq_getElem?_getD,
    List.getElem?_eq_getElem (by omega : i < xs.length), List.getElem?_eq_getElem h]
  simpa using hx

theorem cellIdx_bracket {xs : List ℚ} {x : ℚ} (hs : List.Chain' (· < ·) xs)
    (hlen : 2 ≤ xs.length) (hlo : xs.getD 0 0 ≤ x) (hhi : x ≤ xs.getD (xs.length - 1) 0) :
    cellIdx xs x + 1 < xs.length ∧
      xs.getD (cellIdx xs x) 0 ≤ x ∧ x ≤ xs.getD (cellIdx xs x + 1) 0 := by
  have hL := lowerIdx_le_length xs x
  have hLlt : lowerIdx xs x < xs.length := by
    by_contra hc
    have hx : xs.getD (xs.length - 1) 0 < x := getD_lt_of_lt_lowerIdx (by omega)
    linarith
  rcases Nat.eq_zero_or_pos (lowerIdx xs x) with h0 | hpos
  · have hx0 : x ≤ xs.getD 0 0 := by
      have hx := le_getD_lowerIdx hLlt
      rwa [h0] at hx
    have hcell : cellIdx xs x = 0 := by
      simp [cellIdx, h0]
    refine ⟨by omega, ?_, ?_⟩
    · rw [hcell]; exact hlo
    · rw [hcell]
      have hadj : xs.getD 0 0 < xs.getD 1 0 := chain_adjD hs (by omega)
      linarith
  · have hcell : cellIdx xs x = lowerIdx xs x - 1 := by
      unfold cellIdx
      exact min_eq_left (by omega)
    refine ⟨by rw [hcell]; omega, ?_, ?_⟩
    · rw [hcell]
      exact le_of_lt (getD_lt_of_lt_lowerIdx (by omega))
    · rw [hcell]
      have hsucc : lowerIdx xs x - 1 + 1 = lowerIdx xs x := by omega
      rw [hsucc]
      exact le_getD_lowerIdx hLlt

theorem lerpT_mem {xs : List ℚ} {x : ℚ} {i : ℕ}
    (hlt : xs.getD i 0 < xs.getD (i + 1) 0)
    (h1 : xs.getD i 0 ≤ x) (h2 : x ≤ xs.getD (i + 1) 0) :
    0 ≤ lerpT xs i x ∧ lerpT xs i x ≤ 1 := by
  unfold lerpT
  constructor
  · exact div_nonneg (by linarith) (by linarith)
  · rw [div_le_one (by linarith)]; linarith

theorem convexBound {t u z00 z10 z01 z11 : ℚ}
    (ht0 : 0 ≤ t) (ht1 : t ≤ 1) (hu0 : 0 ≤ u) (hu1 : u ≤ 1)
    (h00 : 0 ≤ z00 ∧ z00 ≤ 1) (h10 : 0 ≤ z10 ∧ z10 ≤ 1)
    (h01 : 0 ≤ z01 ∧ z01 ≤ 1) (h11 : 0 ≤ z11 ∧ z11 ≤ 1) :
    0 ≤ (1 - t) * (1 - u) * z00 + t * (1 - u) * z10 + (1 - t) * u * z01 + t * u * z11 ∧
      (1 - t) * (1 - u) * z00 + t * (1 - u) * z10 + (1 - t) * u * z01 + t * u * z11 ≤ 1 := by
  have c00 : (0:ℚ) ≤ (1 - t) * (1 - u) := mul_nonneg (by linarith) (by linarith)
  have c10 : (0:ℚ) ≤ t * (1 - u) := mul_nonneg ht0 (by linarith)
  have c01 : (0:ℚ) ≤ (1 - t) * u := mul_nonneg (by linarith) hu0
  have c11 : (0:ℚ) ≤ t * u := mul_nonneg ht0 hu0
  constructor
  · have e00 := mul_nonneg c00 h00.1
    have e10 := mul_nonneg c10 h10.1
    have e01 := mul_nonneg c01 h01.1
    have e11 := mul_nonneg c11 h11.1
    linarith
  · have e00 := mul_le_of_le_one_right c00 h00.2
    have e10 := mul_le_of_le_one_right c10 h10.2
    have e01 := mul_le_of_le_one_right c01 h01.2
    have e11 := mul_le_of_le_one_right c11 h11.2
    have hsum : (1 - t) * (1 - u) + t * (1 - u) + (1 - t) * u + t * u = 1 := by ring
    linarith

theorem getD2_bound {z : List (List ℚ)} (hz : ∀ r ∈ z, ∀ v ∈ r, 0 ≤ v ∧ v ≤ 1)
    (i j : ℕ) : 0 ≤ getD2 z i j ∧ getD2 z i j ≤ 1 := by
  have hrow : ∀ (row : List ℚ), (∀ v ∈ row, 0 ≤ v ∧ v ≤ 1) →
      0 ≤ row.getD j 0 ∧ row.getD j 0 ≤ 1 := by
    intro row hr
    rcases h : row[j]? with _ | v
    · rw [List.getD_eq_getElem?_getD, h]
      simp only [Option.getD_none]
      norm_num
    · rw [List.getD_eq_getElem?_getD, h]
      simp only [Option.getD_some]
      exact hr v (List.getElem?_mem h)
  unfold getD2
  rcases h : z[i]? with _ | row
  · have hnil : z.getD i [] = [] := by rw [List.getD_eq_getElem?_getD, h]; rfl
    rw [hnil]
    norm_num [List.getD]
  · have hsome : z.getD i [] = row := by rw [List.getD_eq_getElem?_getD, h]; rfl
    rw [hsome]
    exact hrow row (hz row (List.getElem?_mem h))

theorem getD2_transposeRect_bound {z : List (List ℚ)} {n : ℕ}
    (hz : ∀ r ∈ z, ∀ v ∈ r, 0 ≤ v ∧ v ≤ 1) (i j : ℕ) :
    0 ≤ getD2 (transposeRect n z) i j ∧ getD2 (transposeRect n z) i j ≤ 1 := by
  apply getD2_bound
  intro r hr v hv
  unfold transposeRect at hr
  obtain ⟨i', _, rfl⟩ := List.mem_map.1 hr
  obtain ⟨row, hrow, rfl⟩ := List.mem_map.1 hv
  rcases h : row[i']? with _ | w
  · rw [List.getD_eq_getElem?_getD, h]
    simp only [Option.getD_none]
    norm_num
  · rw [List.getD_eq_getElem?_getD, h]
    simp only [Option.getD_some]
    exact hz row hrow w (List.getElem?_mem h)

theorem outOfBounds_false_iff (xs : List ℚ) (x : ℚ) :
    outOfBounds xs x = false ↔ inBounds xs x := by
  unfold outOfBounds inBounds
  simp [not_lt]

theorem rgInterpolate_inBds {xs ys : List ℚ} {zi : List (List ℚ)} {x y : ℚ}
    (hx : inBounds xs x) (hy : inBounds ys y) :
    rgInterpolate xs ys zi x y = bilinear xs ys zi x y := by
  unfold rgInterpolate
  rw [(outOfBounds_false_iff xs x).2 hx, (outOfBounds_false_iff ys y).2 hy]
  simp

theorem rgInterpolate_outOfBds {xs ys : List ℚ} {zi : List (List ℚ)} {x y : ℚ}
    (h : ¬(inBounds xs x ∧ inBounds ys y)) :
    rgInterpolate xs ys zi x y = 1 / 1000 := by
  have hor : outOfBounds xs x = true ∨ outOfBounds ys y = true := by
    by_contra hc
    push_neg at hc
    obtain ⟨h1, h2⟩ := hc
    exact h ⟨(outOfBounds_false_iff xs x).1 (by simpa using h1),
      (outOfBounds_false_iff ys y).1 (by simpa using h2)⟩
  unfold rgInterpolate
  rcases hor with h1 | h1 <;> simp [h1]

theorem bilinear_bound {xs ys : List ℚ} {zi : List (List ℚ)} {x y : ℚ}
    (hxs : List.Chain' (· < ·) xs) (hys : List.Chain' (· < ·) ys)
    (hlx : 2 ≤ xs.length) (hly : 2 ≤ ys.length)
    (hx : inBounds xs x) (hy : inBounds ys y)
    (hz : ∀ i j, 0 ≤ getD2 zi i j ∧ getD2 zi i j ≤ 1) :
    0 ≤ bilinear xs ys zi x y ∧ bilinear xs ys zi x y ≤ 1 := by
  obtain ⟨hbx, hxl, hxr⟩ := cellIdx_bracket hxs hlx hx.1 hx.2
  obtain ⟨hby, hyl, hyr⟩ := cellIdx_bracket hys hly hy.1 hy.2
  have hltx := chain_adjD hxs hbx
  have hlty := chain_adjD hys hby
  obtain ⟨ht0, ht1⟩ := lerpT_mem hltx hxl hxr
  obtain ⟨hu0, hu1⟩ := lerpT_mem hlty hyl hyr
  unfold bilinear
  exact convexBound ht0 ht1 hu0 hu1 (hz _ _) (hz _ _) (hz _ _) (hz _ _)

theorem bilinear_of_ones {xs ys : List ℚ} {zi : List (List ℚ)} {x y : ℚ}
    (hxs : List.Chain' (· < ·) xs) (hys : List.Chain' (· < ·) ys)
    (hlx : 2 ≤ xs.length) (hly : 2 ≤ ys.length)
    (hx : inBounds xs x) (hy : inBounds ys y)
    (hone : ∀ a b, a < xs.length → b < ys.length → getD2 zi a b = 1) :
    bilinear xs ys zi x y = 1 := by
  obtain ⟨hbx, -, -⟩ := cellIdx_bracket hxs hlx hx.1 hx.2
  obtain ⟨hby, -, -⟩ := cellIdx_bracket hys hly hy.1 hy.2
  unfold bilinear
  rw [hone _ _ (by omega) (by omega), hone _ _ (by omega) (by omega),
    hone _ _ (by omega) (by omega), hone _ _ (by omega) (by omega)]
  ring

theorem getD2_transposeRect_fillNan_one {zraw : List (List (Option ℚ))} {nx ny : ℕ}
    (hny : zraw.length = ny) (hnx : ∀ row ∈ zraw, row.length = nx)
    (hnan : ∀ row ∈ zraw, ∀ c ∈ row, c = none)
    {a b : ℕ} (ha : a < nx) (hb : b < ny) :
    getD2 (transposeRect nx (fillNan zraw)) a b = 1 := by
  have hb' : b < zraw.length := by omega
  have hmem : zraw[b] ∈ zraw := List.getElem_mem hb'
  have ha' : a < zraw[b].length := by rw [hnx _ hmem]; exact ha
  have hc : zraw[b][a] = none := hnan _ hmem _ (List.getElem_mem ha')
  have hbF : b < (fillNan zraw).length := by
    unfold fillNan; rw [List.length_map]; exact hb'
  unfold getD2 transposeRect
  have hstep1 :
      (List.map (fun i => List.map (fun row => row.getD i 0) (fillNan zraw))
        (List.range nx)).getD a []
        = List.map (fun row => row.getD a 0) (fillNan zraw) := by
    rw [List.getD_eq_getElem?_getD, List.getElem?_map, List.getElem?_range ha]
    rfl
  rw [hstep1, List.getD_eq_getElem?_getD, List.getElem?_map,
    List.getElem?_eq_getElem hbF]
  simp only [Option.map_some', Option.getD_some]
  have hrow : (fillNan zraw)[b] = zraw[b].map (fun c => c.getD 1) := by
    unfold fillNan
    rw [List.getElem_map]
  rw [hrow, List.getD_eq_getElem?_getD, List.getElem?_map,
    List.getElem?_eq_getElem ha', hc]
  rfl

/-! ## Bin-index lemmas -/

theorem rawIdx_bounds (edges : List ℚ) (v : ℚ) :
    -1 ≤ rawIdx edges v ∧ rawIdx edges v ≤ (edges.length : ℤ) - 1 := by
  unfold rawIdx
  have h := List.countP_le_length (fun e => decide (e ≤ v)) (l := edges)
  omega

theorem clampIdx_mem {n : ℤ} (i : ℤ) (hn : 1 ≤ n) :
    0 ≤ clampIdx n i ∧ clampIdx n i ≤ n - 1 := by
  simp only [clampIdx]
  split_ifs <;> omega

theorem clampIdx_eq {n i : ℤ} (h0 : 0 ≤ i) (h1 : i ≤ n - 1) : clampIdx n i = i := by
  simp only [clampIdx]
  split_ifs <;> omega

theorem flatIdx_mem (H : Hierarchy) (lna lnm : ℚ)
    (hA : 2 ≤ H.lna_edges.length) (hM : 2 ≤ H.lnm_edges.length) :
    0 ≤ H.flatIdx lna lnm ∧
      H.flatIdx lna lnm ≤ nbinsOf H.lna_edges * nbinsOf H.lnm_edges - 1 := by
  have hna : 1 ≤ nbinsOf H.lna_edges := by unfold nbinsOf; omega
  have hnm : 1 ≤ nbinsOf H.lnm_edges := by unfold nbinsOf; omega
  obtain ⟨h1, h2⟩ := clampIdx_mem (rawIdx H.lna_edges lna) hna
  obtain ⟨h3, h4⟩ := clampIdx_mem (rawIdx H.lnm_edges lnm) hnm
  unfold Hierarchy.flatIdx
  constructor
  · exact add_nonneg h1 (mul_nonneg h3 (by omega))
  · nlinarith [mul_le_mul_of_nonneg_right h4 (by omega : (0:ℤ) ≤ nbinsOf H.lna_edges)]

theorem npGet_of_range {l : List ℚ} {i : ℤ} (h0 : 0 ≤ i) (h1 : i < (l.length : ℤ)) :
    npGet l i = some (l.getD i.toNat 0) := by
  simp only [npGet]
  rw [if_neg (not_lt.2 h0), if_pos (⟨h0, h1⟩ : 0 ≤ i ∧ i < (l.length : ℤ))]
  rw [List.getElem?_eq_getElem (by omega : i.toNat < l.length)]
  rw [List.getD_eq_getElem?_getD, List.getElem?_eq_getElem (by omega : i.toNat < l.length)]
  rfl

/-! ## Row-major flatten lemmas -/

theorem flatten_uniform_getD (L : List (List Bin)) (m : ℕ)
    (hL : ∀ l ∈ L, l.length = m) (i j : ℕ) (hi : i < L.length) (hj : j < m) (d : Bin) :
    L.flatten.getD (i * m + j) d = (L.getD i []).getD j d := by
  induction L generalizing i with
  | nil => simp at hi
  | cons l rest ih =>
    have hl : l.length = m := hL l (by simp)
    cases i with
    | zero =>
      simp only [List.flatten_cons, Nat.zero_mul, Nat.zero_add, List.getD_cons_zero]
      rw [List.getD_eq_getElem?_getD, List.getElem?_append_left (by omega),
        ← List.getD_eq_getElem?_getD]
    | succ i' =>
      have hml : l.length ≤ (i' + 1) * m + j := by
        rw [hl, Nat.succ_mul]
        omega
      simp only [List.flatten_cons, List.getD_cons_succ]
      rw [List.getD_eq_getElem?_getD, List.getElem?_append_right hml,
        ← List.getD_eq_getElem?_getD]
      have hidx : (i' + 1) * m + j - l.length = i' * m + j := by
        rw [hl, Nat.succ_mul]
        omega
      rw [hidx]
      exact ih (fun l2 hl2 => hL l2 (List.mem_cons_of_mem l hl2)) i' (by simpa using hi)

theorem map_range_getD {α : Type} (f : ℕ → List α) (n i : ℕ) (hi : i < n) :
    ((List.range n).map f).getD i [] = f i := by
  rw [List.getD_eq_getElem?_getD, List.getElem?_map, List.getElem?_range hi]
  rfl

theorem getD_map_div (l : List ℚ) (d : ℚ) (i : ℕ) (h : l.getD i 0 = 0) :
    (l.map (fun q => q / d)).getD i 0 = 0 := by
  rcases hlt : l[i]? with _ | v
  · rw [List.getD_eq_getElem?_getD, List.getElem?_map, hlt]
    rfl
  · rw [List.getD_eq_getElem?_getD, List.getElem?_map, hlt]
    simp only [Option.map_some', Option.getD_some]
    rw [List.getD_eq_getElem?_getD, hlt] at h
    simp only [Option.getD_some] at h
    rw [h, zero_div]

/-! ## Claim theorems -/

/-- C8: calling `Completeness.interpolate` when no grid has been built and
no interpolator already exists fails immediately with the precondition
error, rather than returning a value. -/
theorem interpolate_requires_grid (c : Completeness) (x y : ℚ) (refresh : Bool)
    (hI : c.interpolator = none) (hG : c.grid = none) :
    c.interpolate x y refresh = .error "Must run Completeness.completeness_grid()." := by
  obtain ⟨cg, ci⟩ := c
  change ci = none at hI
  change cg = none at hG
  subst hI
  subst hG
  cases refresh <;> rfl

/-- Witness: a fresh `Completeness` state with neither grid nor
interpolant errors out. -/
theorem interpolate_requires_grid_witness :
    Completeness.interpolate ⟨none, none⟩ 0 0 false =
      .error "Must run Completeness.completeness_grid()." :=
  interpolate_requires_grid ⟨none, none⟩ 0 0 false rfl rfl

/-- C1 (amended): `Hierarchy.lnlike` returns exactly `-inf` (`none`
without consulting the body) iff the hard bound fires, and the
fraction-mode bound tests `(Σ theta) * (Σ bin areas) / nstars > 1` — the
numpy broadcast of the `(nbins, 1)` area column against `theta` — rather
than the elementwise area-weighted sum (the two agree for a single bin);
the `theta ≤ 0` and `theta > 10 * ceiling` checks are elementwise as
claimed.  When the hard bound does not fire, `lnlike` passes `theta` to
the likelihood body. -/
theorem lnlike_hard_bound_factored (H : Hierarchy) (theta : List ℚ) :
    H.lnlike theta = if hardReject H theta then none else H.rest theta := by
  unfold Hierarchy.lnlike hardReject
  rw [sumBroadcast_eq]
  cases hf : (H.fraction && decide (H.bin_areas.sum * theta.sum / H.nstars > 1)) with
  | false =>
    cases ha : theta.any (fun t => decide (t ≤ 0) || decide (t > 10 * H.ceiling)) with
    | false => simp [hf, ha]
    | true => simp [hf, ha]
  | true => simp [hf]

/-- C1 (counterexample): with two unit-area bins, one star, fraction mode
on and `theta = [0.3, 0.3]`, none of the claim's hard-bound conditions
hold — every component is positive and at most `10 * ceiling`, and the
elementwise area-weighted sum is `0.6 ≤ 1` — yet `lnlike` returns `-inf`
(`none`), because the broadcast sum `(0.3 + 0.3) * (1 + 1) = 1.2`
exceeds `1`. -/
theorem lnlike_fraction_counterexample :
    Hierarchy.lnlike gateH [3/10, 3/10] = none ∧
      specWeightedSum gateH.bin_areas [3/10, 3/10] / gateH.nstars ≤ 1 ∧
      ([3/10, 3/10] : List ℚ).all
        (fun t => decide (0 < t) && decide (t ≤ 10 * gateH.ceiling)) = true :=
  ⟨by decide, by decide, by decide⟩

/-- C2: the `PowerLaw` constructor indexes `Qints` by the *axis* sub-grid
index, not per mass index: with `lna_res = 2 < 3 = lnm_res` and constant
completeness `1` the code produces `Qints = [1, 1, 0]` (entry `i < 2`
integrates over all masses at axis center `i`; the tail stays zero),
whereas the spec's per-mass-index array is `[2/3, 2/3, 2/3]`; accordingly
the expected-count term of `lnlike` sums only `i < lna_res`, pairing
`Qints[i]` with the *mass* center of index `i` (code: `2`,
spec: `3`). -/
theorem powerlaw_qints_axis_indexed :
    PowerLawQints (fun _ _ => 1) id id 0 2 0 3 2 3 = [1, 1, 0] ∧
      specQintsPerMass (fun _ _ => 1) id id 0 2 0 3 2 3 = [2/3, 2/3, 2/3] ∧
      PowerLawQints (fun _ _ => 1) id id 0 2 0 3 2 3 ≠
        specQintsPerMass (fun _ _ => 1) id id 0 2 0 3 2 3 ∧
      PowerLawNexpect (fun _ _ => 1) id id 0 2 0 3 2 3 (fun m => m) = 2 ∧
      specNexpectPerMass (fun _ _ => 1) id id 0 2 0 3 2 3 (fun m => m) = 3 :=
  ⟨by decide, by decide, by decide, by decide, by decide⟩

/-- C10: with `lna_res ≤ i < lnm_res` the accumulation loop of
`PowerLaw.__init__` never writes entry `i` of the length-`lnm_res`
`Qints` array (it writes only indices below `lna_res`), so that entry is
exactly zero. -/
theorem powerlaw_qints_tail_zero (Q : ℚ → ℚ → ℚ) (lnF expF : ℚ → ℚ)
    (a1 a2 m1 m2 : ℚ) (lna_res lnm_res : ℕ) (i : ℕ)
    (h1 : lna_res ≤ i) (h2 : i < lnm_res) :
    (PowerLawQints Q lnF expF a1 a2 m1 m2 lna_res lnm_res).getD i 0 = 0 := by
  unfold PowerLawQints
  refine getD_map_div _ _ i ?_
  exact foldl_invariant (fun acc : List ℚ => ∀ k, lna_res ≤ k → acc.getD k 0 = 0) _
    (List.range lna_res) (List.replicate lnm_res 0)
    (fun k _ => by
      rw [List.getD_eq_getElem?_getD, List.getElem?_replicate]
      split <;> rfl)
    (fun acc n hn hacc =>
      foldl_invariant (fun acc2 : List ℚ => ∀ k, lna_res ≤ k → acc2.getD k 0 = 0) _
        (List.range lnm_res) acc hacc
        (fun acc2 j _ hacc2 k hk => by
          have hnlt : n < lna_res := List.mem_range.1 hn
          have hne : n ≠ k := by omega
          rw [List.getD_eq_getElem?_getD, List.getElem?_set_ne hne,
            ← List.getD_eq_getElem?_getD]
          exact hacc2 k hk)) i h1

/-- Witness: with the defaults scaled down to `lna_res = 2`,
`lnm_res = 3`, entry `2` of `Qints` is zero. -/
theorem powerlaw_qints_tail_zero_witness :
    ((2:ℕ) ≤ 2 ∧ (2:ℕ) < 3) ∧
      (PowerLawQints (fun _ _ => 1) id id 0 2 0 3 2 3).getD 2 0 = 0 :=
  ⟨⟨le_refl 2, by decide⟩,
    powerlaw_qints_tail_zero (fun _ _ => 1) id id 0 2 0 3 2 3 2 (le_refl 2) (by decide)⟩

/-- C3: for a `theta` of length `nabins * nmbins`, `Hierarchy.occurrence`
returns the filler `0.01` exactly when the raw (unclamped)
digitize-derived bin index in either direction leaves `[0, nbins - 1]`,
and for every in-domain point returns `theta` at the flat index
`axis-bin + mass-bin * nabins`. -/
theorem occurrence_filler_or_theta (H : Hierarchy) (lna lnm : ℚ) (theta : List ℚ)
    (hA : 2 ≤ H.lna_edges.length) (hM : 2 ≤ H.lnm_edges.length)
    (hT : (theta.length : ℤ) = nbinsOf H.lna_edges * nbinsOf H.lnm_edges) :
    H.occurrence lna lnm theta =
      some (if rawIdx H.lna_edges lna < 0 ∨ rawIdx H.lnm_edges lnm < 0 ∨
          rawIdx H.lna_edges lna > nbinsOf H.lna_edges - 1 ∨
          rawIdx H.lnm_edges lnm > nbinsOf H.lnm_edges - 1
        then 1 / 100
        else theta.getD (rawIdx H.lna_edges lna +
          rawIdx H.lnm_edges lnm * nbinsOf H.lna_edges).toNat 0) := by
  obtain ⟨hf0, hf1⟩ := flatIdx_mem H lna lnm hA hM
  unfold Hierarchy.occurrence
  rw [npGet_of_range hf0 (by omega)]
  dsimp only
  by_cases hout : (rawIdx H.lna_edges lna < 0 ∨ rawIdx H.lnm_edges lnm < 0 ∨
      rawIdx H.lna_edges lna > nbinsOf H.lna_edges - 1 ∨
      rawIdx H.lnm_edges lnm > nbinsOf H.lnm_edges - 1)
  · rw [if_pos hout, if_pos hout]
  · rw [if_neg hout, if_neg hout]
    push_neg at hout
    obtain ⟨h1, h2, h3, h4⟩ := hout
    have hflat : H.flatIdx lna lnm = rawIdx H.lna_edges lna +
        rawIdx H.lnm_edges lnm * nbinsOf H.lna_edges := by
      unfold Hierarchy.flatIdx
      rw [clampIdx_eq h1 h3, clampIdx_eq h2 h4]
    rw [hflat]

/-- Witness: 2×2 bins with edges `[0, 1, 2]` in both directions; the
in-domain query `(0.5, 1.5)` digitizes to axis bin `0` and mass bin `1`,
flat index `0 + 1*2 = 2`, so `theta[2] = 30` is returned. -/
theorem occurrence_filler_or_theta_witness :
    ((2:ℕ) ≤ hierW.lna_edges.length ∧
      (([10, 20, 30, 40] : List ℚ).length : ℤ) =
        nbinsOf hierW.lna_edges * nbinsOf hierW.lnm_edges) ∧
      hierW.occurrence (1/2) (3/2) [10, 20, 30, 40] = some 30 :=
  ⟨⟨by decide, by decide⟩,
    (occurrence_filler_or_theta hierW (1/2) (3/2) [10, 20, 30, 40]
      (by decide) (by decide) (by decide)).trans (by decide)⟩

/-- C9: `Hierarchy.occurrence` is total: for every query point, however
far out of range, the clamped flat index `ia + im * nabins` stays within
`[0, nabins*nmbins - 1]`, so for any `theta` of length at least
`nabins*nmbins` the lookup never goes out of bounds. -/
theorem occurrence_total (H : Hierarchy) (lna lnm : ℚ) (theta : List ℚ)
    (hA : 2 ≤ H.lna_edges.length) (hM : 2 ≤ H.lnm_edges.length)
    (hT : nbinsOf H.lna_edges * nbinsOf H.lnm_edges ≤ (theta.length : ℤ)) :
    0 ≤ H.flatIdx lna lnm ∧
      H.flatIdx lna lnm ≤ nbinsOf H.lna_edges * nbinsOf H.lnm_edges - 1 ∧
      (H.occurrence lna lnm theta).isSome = true := by
  obtain ⟨h0, h1⟩ := flatIdx_mem H lna lnm hA hM
  refine ⟨h0, h1, ?_⟩
  unfold Hierarchy.occurrence
  rw [npGet_of_range h0 (by omega)]
  rfl

/-- Witness: the far out-of-range query `(1000, -5)` on the 2×2 example
still clamps to a valid flat index and produces a value. -/
theorem occurrence_total_witness :
    ((2:ℕ) ≤ hierW.lna_edges.length ∧
      nbinsOf hierW.lna_edges * nbinsOf hierW.lnm_edges ≤
        (([10, 20, 30, 40] : List ℚ).length : ℤ)) ∧
      (0 ≤ hierW.flatIdx 1000 (-5) ∧
        hierW.flatIdx 1000 (-5) ≤
          nbinsOf hierW.lna_edges * nbinsOf hierW.lnm_edges - 1 ∧
        (hierW.occurrence 1000 (-5) [10, 20, 30, 40]).isSome = true) :=
  ⟨⟨by decide, by decide⟩,
    occurrence_total hierW 1000 (-5) [10, 20, 30, 40] (by decide) (by decide) (by decide)⟩

/-- C4: a completeness-grid cell is NaN (`none`) exactly when the
axis-range trial set (`xbox`) is empty, or the cell mass `y` lies outside
the min/max injected mass of that set, or the full local box holds at
most 10 trials; every non-NaN cell equals the recovered/total ratio of
its box, a value in `[0, 1]`. -/
theorem cellValue_cases (trials : List Trial) (xlow xhigh ylow yhigh y : ℚ) :
    (cellValue trials xlow xhigh ylow yhigh y = none ↔
      ((xboxMasses trials xlow xhigh).isEmpty = true ∨
        y > maxQ (xboxMasses trials xlow xhigh) ∨
        y < minQ (xboxMasses trials xlow xhigh) ∨
        (trials.filter (fun t => inFullBox xlow xhigh ylow yhigh t)).length ≤ 10)) ∧
    (∀ r, cellValue trials xlow xhigh ylow yhigh y = some r →
      r = ((trials.filter
            (fun t => t.recovered && inFullBox xlow xhigh ylow yhigh t)).length : ℚ) /
          ((trials.filter (fun t => inFullBox xlow xhigh ylow yhigh t)).length : ℚ) ∧
        0 ≤ r ∧ r ≤ 1) := by
  have hgle : (trials.filter
        (fun t => t.recovered && inFullBox xlow xhigh ylow yhigh t)).length ≤
      (trials.filter (fun t => inFullBox xlow xhigh ylow yhigh t)).length := by
    rw [← List.countP_eq_length_filter, ← List.countP_eq_length_filter]
    apply List.countP_mono_left
    intro a _ h
    simp only [Bool.and_eq_true] at h
    exact h.2
  unfold cellValue
  by_cases h1 : ((xboxMasses trials xlow xhigh).isEmpty = true ∨
      y > maxQ (xboxMasses trials xlow xhigh) ∨ y < minQ (xboxMasses trials xlow xhigh))
  · rw [if_pos h1]
    refine ⟨⟨fun _ => ?_, fun _ => rfl⟩, fun r hr => by simp at hr⟩
    tauto
  · rw [if_neg h1]
    by_cases h2 : (trials.filter (fun t => inFullBox xlow xhigh ylow yhigh t)).length > 10
    · rw [if_pos h2]
      constructor
      · constructor
        · intro hr
          simp at hr
        · intro hd
          exfalso
          rcases hd with hd | hd | hd | hd
          · exact h1 (Or.inl hd)
          · exact h1 (Or.inr (Or.inl hd))
          · exact h1 (Or.inr (Or.inr hd))
          · omega
      · intro r hr
        have hrv := Option.some.inj hr
        refine ⟨hrv.symm, ?_, ?_⟩
        · rw [← hrv]
          exact div_nonneg (Nat.cast_nonneg _) (Nat.cast_nonneg _)
        · rw [← hrv]
          have hpos : (0:ℚ) <
              ((trials.filter (fun t => inFullBox xlow xhigh ylow yhigh t)).length : ℚ) := by
            exact_mod_cast (by omega :
              0 < (trials.filter (fun t => inFullBox xlow xhigh ylow yhigh t)).length)
          rw [div_le_one hpos]
          exact_mod_cast hgle
    · rw [if_neg h2]
      refine ⟨⟨fun _ => Or.inr (Or.inr (Or.inr (by omega))), fun _ => rfl⟩,
        fun r hr => by simp at hr⟩

/-- Witness: 12 identical trials in the box, 11 recovered, give the
ratio `11/12`; the NaN conditions all fail. -/
theorem cellValue_cases_witness :
    cellValue trialsW 0 2 0 2 1 = some (11/12) ∧
      ((11:ℚ)/12 = ((trialsW.filter
            (fun t => t.recovered && inFullBox 0 2 0 2 t)).length : ℚ) /
          ((trialsW.filter (fun t => inFullBox 0 2 0 2 t)).length : ℚ) ∧
        0 ≤ (11:ℚ)/12 ∧ (11:ℚ)/12 ≤ 1) :=
  ⟨by decide, (cellValue_cases trialsW 0 2 0 2 1).2 (11/12) (by decide)⟩

/-- C5: over a built grid whose values all lie in `[0, 1]` (NaNs already
replaced), `Completeness.interpolate` never errors: it returns the
bilinear interpolant's value, which lies in `[0, 1]` for every query
inside the grid bounds and equals the fixed fallback `0.001` for every
query outside them. -/
theorem interpolate_in_unit_interval (c : Completeness) (g : Grid) (x y : ℚ)
    (hg : c.grid = some g) (hi : c.interpolator = none)
    (hxs : List.Chain' (· < ·) g.xs) (hys : List.Chain' (· < ·) g.ys)
    (hlx : 2 ≤ g.xs.length) (hly : 2 ≤ g.ys.length)
    (hz : ∀ r ∈ g.z, ∀ v ∈ r, 0 ≤ v ∧ v ≤ 1) :
    interpValue c x y false =
      some (rgInterpolate g.xs g.ys (transposeRect g.xs.length g.z) x y) ∧
      (inBounds g.xs x ∧ inBounds g.ys y →
        0 ≤ rgInterpolate g.xs g.ys (transposeRect g.xs.length g.z) x y ∧
          rgInterpolate g.xs g.ys (transposeRect g.xs.length g.z) x y ≤ 1) ∧
      (¬(inBounds g.xs x ∧ inBounds g.ys y) →
        rgInterpolate g.xs g.ys (transposeRect g.xs.length g.z) x y = 1 / 1000) := by
  obtain ⟨cg, ci⟩ := c
  change cg = some g at hg
  change ci = none at hi
  subst hg
  subst hi
  refine ⟨rfl, ?_, ?_⟩
  · intro hxy
    rw [rgInterpolate_inBds hxy.1 hxy.2]
    exact bilinear_bound hxs hys hlx hly hxy.1 hxy.2 (getD2_transposeRect_bound hz)
  · intro h
    exact rgInterpolate_outOfBds h

/-- Witness: on the concrete 2×2 grid the in-bounds query `(1, 1)`
succeeds and its value is within `[0, 1]`. -/
theorem interpolate_in_unit_interval_witness :
    interpValue compW 1 1 false =
      some (rgInterpolate gridW.xs gridW.ys
        (transposeRect gridW.xs.length gridW.z) 1 1) ∧
      (0 ≤ rgInterpolate gridW.xs gridW.ys (transposeRect gridW.xs.length gridW.z) 1 1 ∧
        rgInterpolate gridW.xs gridW.ys (transposeRect gridW.xs.length gridW.z) 1 1 ≤ 1) := by
  have h := interpolate_in_unit_interval compW gridW 1 1 rfl rfl
    (by norm_num [gridW, List.chain'_cons, List.chain'_singleton])
    (by norm_num [gridW, List.chain'_cons, List.chain'_singleton])
    (by decide) (by decide) (by decide)
  exact ⟨h.1, h.2.1 ⟨by decide, by decide⟩⟩

/-- C6: when every completeness cell is NaN (no trials at all) and the
constructor's fill replaces them with `1.0`, the integrated completeness
`Qint` of a bin equals exactly its geometric area — the midpoint-rule sum
of a constant-1 integrand — provided the bin's sub-grid midpoints lie
inside the interpolation bounds. -/
theorem qint_all_nan_is_area (expF : ℚ → ℚ) (xs ys : List ℚ)
    (zraw : List (List (Option ℚ))) (res : ℕ) (b : Bin)
    (hres : 0 < res)
    (hxs : List.Chain' (· < ·) xs) (hys : List.Chain' (· < ·) ys)
    (hlx : 2 ≤ xs.length) (hly : 2 ≤ ys.length)
    (hny : zraw.length = ys.length) (hnx : ∀ row ∈ zraw, row.length = xs.length)
    (hnan : ∀ row ∈ zraw, ∀ c ∈ row, c = none)
    (hmid : ∀ i < res, ∀ j < res,
      inBounds xs (expF (lnaAv b res i)) ∧ inBounds ys (expF (lnmAv b res j))) :
    Qint expF xs ys (transposeRect xs.length (fillNan zraw)) res b = binArea b := by
  have hone : ∀ a2 b2, a2 < xs.length → b2 < ys.length →
      getD2 (transposeRect xs.length (fillNan zraw)) a2 b2 = 1 := by
    intro a2 b2 ha2 hb2
    exact getD2_transposeRect_fillNan_one hny hnx hnan ha2 hb2
  have hterm : ∀ i ∈ Finset.range res, ∀ j ∈ Finset.range res,
      rgInterpolate xs ys (transposeRect xs.length (fillNan zraw))
        (expF (lnaAv b res i)) (expF (lnmAv b res j)) = 1 := by
    intro i hi j hj
    obtain ⟨hx, hy⟩ := hmid i (Finset.mem_range.1 hi) j (Finset.mem_range.1 hj)
    rw [rgInterpolate_inBds hx hy]
    exact bilinear_of_ones hxs hys hlx hly hx hy hone
  unfold Qint
  have hsum : ∀ i ∈ Finset.range res,
      (∑ j ∈ Finset.range res, (binArea b / (res:ℚ)^2) *
        rgInterpolate xs ys (transposeRect xs.length (fillNan zraw))
          (expF (lnaAv b res i)) (expF (lnmAv b res j)))
        = (res:ℚ) * (binArea b / (res:ℚ)^2) := by
    intro i hi
    rw [Finset.sum_congr rfl (fun j hj => by rw [hterm i hi j hj, mul_one])]
    rw [Finset.sum_const, Finset.card_range, nsmul_eq_mul]
  rw [Finset.sum_congr rfl hsum, Finset.sum_const, Finset.card_range, nsmul_eq_mul]
  have hres' : ((res:ℚ)) ≠ 0 := Nat.cast_ne_zero.2 (by omega)
  field_simp
  ring

/-- Witness: an all-NaN 2×2 grid, filled to 1, gives `Qint` equal to the
unit bin's area. -/
theorem qint_all_nan_is_area_witness :
    Qint id [-10, 10] [-10, 10]
      (transposeRect 2 (fillNan [[none, none], [none, none]])) 1 ⟨0, 1, 0, 1⟩ = 1 := by
  have h := qint_all_nan_is_area id [-10, 10] [-10, 10] [[none, none], [none, none]] 1
    ⟨0, 1, 0, 1⟩ (by decide)
    (by norm_num [List.chain'_cons, List.chain'_singleton])
    (by norm_num [List.chain'_cons, List.chain'_singleton])
    (by decide) (by decide) (by decide) (by decide) (by decide) (by decide)
  exact h.trans (by decide)

theorem sum_map_constN {α : Type} (l : List α) (c : ℕ) :
    (l.map (fun _ => c)).sum = l.length * c := by
  induction l with
  | nil => simp
  | cons a rest ih =>
    simp only [List.map_cons, List.sum_cons, List.length_cons, ih]
    ring

theorem getD_map_range {α : Type} (g : ℕ → α) (d : α) (n j : ℕ) (hj : j < n) :
    ((List.range n).map g).getD j d = g j := by
  rw [List.getD_eq_getElem?_getD, List.getElem?_map, List.getElem?_range hj]
  rfl

theorem length_flatten_map_range {α : Type} (f : ℕ → List α) (n m : ℕ)
    (hf : ∀ i ∈ List.range n, (f i).length = m) :
    (((List.range n).map f).flatten).length = n * m := by
  rw [List.length_flatten, List.map_map]
  have hc : List.map (List.length ∘ f) (List.range n) =
      List.map (fun _ => m) (List.range n) := by
    apply List.map_congr_left
    intro i hi
    simp [Function.comp, hf i hi]
  rw [hc, sum_map_constN, List.length_range]

/-- C7: for positive inputs with `min < max` and positive resolutions,
`lngrid` returns exactly `resa * resm` bins in row-major (axis-major,
mass-minor) order: the bin at flat index `i * resm + j` is the pair of
ln-intervals with endpoints `lnF min + i·d` and `lnF min + (i+1)·d` along
each direction; every interval satisfies `low < high`; and the equal
widths tile the full ln-range exactly (`res · d = lnF max - lnF min`),
leaving no gaps or overlaps. -/
theorem lngrid_count_and_tiling (lnF : ℚ → ℚ) (min_a max_a min_M max_M : ℚ)
    (resa resm : ℕ) (hmono : StrictMono lnF)
    (h0a : 0 < min_a) (h0M : 0 < min_M) (ha : min_a < max_a) (hM : min_M < max_M)
    (hra : 0 < resa) (hrm : 0 < resm) :
    (lngrid lnF min_a max_a min_M max_M resa resm).length = resa * resm ∧
      (∀ i j, i < resa → j < resm →
        (lngrid lnF min_a max_a min_M max_M resa resm).getD (i * resm + j) ⟨0, 0, 0, 0⟩ =
          { la1 := lnF min_a + (i : ℚ) * dln lnF min_a max_a resa
            la2 := lnF min_a + ((i : ℚ) + 1) * dln lnF min_a max_a resa
            lm1 := lnF min_M + (j : ℚ) * dln lnF min_M max_M resm
            lm2 := lnF min_M + ((j : ℚ) + 1) * dln lnF min_M max_M resm }) ∧
      (∀ b ∈ lngrid lnF min_a max_a min_M max_M resa resm,
        b.la1 < b.la2 ∧ b.lm1 < b.lm2) ∧
      (resa : ℚ) * dln lnF min_a max_a resa = lnF max_a - lnF min_a ∧
      (resm : ℚ) * dln lnF min_M max_M resm = lnF max_M - lnF min_M := by
  have hda : 0 < dln lnF min_a max_a resa := by
    unfold dln
    apply div_pos (sub_pos.2 (hmono ha))
    exact_mod_cast hra
  have hdm : 0 < dln lnF min_M max_M resm := by
    unfold dln
    apply div_pos (sub_pos.2 (hmono hM))
    exact_mod_cast hrm
  refine ⟨?_, ?_, ?_, ?_, ?_⟩
  · unfold lngrid
    apply length_flatten_map_range
    intro i _
    simp
  · intro i j hi hj
    unfold lngrid
    rw [flatten_uniform_getD _ resm
      (by
        intro l hl
        obtain ⟨i2, _, rfl⟩ := List.mem_map.1 hl
        simp)
      i j (by simpa using hi) hj]
    rw [map_range_getD _ resa i hi, getD_map_range _ _ resm j hj]
  · intro b hb
    unfold lngrid at hb
    rw [List.mem_flatten] at hb
    obtain ⟨l, hl, hbl⟩ := hb
    obtain ⟨i, _, rfl⟩ := List.mem_map.1 hl
    obtain ⟨j, _, rfl⟩ := List.mem_map.1 hbl
    constructor
    · show lnF min_a + (i : ℚ) * dln lnF min_a max_a resa <
        lnF min_a + ((i : ℚ) + 1) * dln lnF min_a max_a resa
      nlinarith [hda]
    · show lnF min_M + (j : ℚ) * dln lnF min_M max_M resm <
        lnF min_M + ((j : ℚ) + 1) * dln lnF min_M max_M resm
      nlinarith [hdm]
  · unfold dln
    field_simp
  · unfold dln
    field_simp

/-- Witness: `lngrid` on `[1, 2] × [1, 2]` with `resa = resm = 1` (the
strictly monotone identity standing in for `ln`) has exactly one bin and
its single division spans the whole range. -/
theorem lngrid_count_and_tiling_witness :
    (lngrid id 1 2 1 2 1 1).length = 1 * 1 ∧
      (1 : ℚ) * dln id 1 2 1 = id 2 - id 1 := by
  have h := lngrid_count_and_tiling id 1 2 1 2 1 1 strictMono_id (by decide) (by decide)
    (by decide) (by decide) (by decide) (by decide)
  exact ⟨h.1, h.2.2.2.1⟩

end Occur

